import Mathlib

/-!
Shallow embedding of the StegoPic-LSB core (`src/steg.py`).

Text is modelled as a list of character code points (`List Nat`), binary
strings as lists of bits (`List Bool`, MSB first within a byte), and a PIL
RGB image as its width, height and row-major pixel list of (R, G, B)
channel triples.  `hide_data` and `extract_data` follow the source
line by line; file I/O (loading and saving images) is outside the core
and is dropped: `hide_data` takes the cover buffer and returns the stego
buffer (Python returns `False` on the capacity check, modelled as `none`),
and `extract_data` takes the stego buffer directly.
-/

/-- Code points of the module constant `STOP_SIGNAL = "#####END#####"`
(`#` = 35, `E` = 69, `N` = 78, `D` = 68). -/
def STOP_SIGNAL : List Nat := [35, 35, 35, 35, 35, 69, 78, 68, 35, 35, 35, 35, 35]

/-- Big-endian binary digits of `n` with no leading zeros (empty for 0),
fuel-structured so that it reduces in the kernel; `bitsOfNat` supplies
fuel `n`, enough since `n` has at most `n` binary digits for `n ≥ 1`. -/
def bitsOfNatAux : Nat → Nat → List Bool
  | 0, _ => []
  | fuel + 1, n => if n = 0 then [] else bitsOfNatAux fuel (n / 2) ++ [decide (n % 2 = 1)]

/-- Minimal big-endian binary representation of `n` (empty for 0). -/
def bitsOfNat (n : Nat) : List Bool := bitsOfNatAux n n

/-- Python's `format(n, "08b")`: the binary representation of `n`,
zero-padded on the left to at least 8 digits.  For `n ≤ 255` this is
exactly 8 bits; for larger `n` (e.g. 300) it is longer than 8 bits. -/
def format08b (n : Nat) : List Bool :=
  List.replicate (8 - (bitsOfNat n).length) false ++ bitsOfNat n

/-- `to_binary` on a string (`steg.py` lines 15–18): concatenation of
`format(ord(c), "08b")` over the characters in order. -/
def to_binary (s : List Nat) : List Bool := (s.map format08b).flatten

/-- `to_binary(STOP_SIGNAL)`, the 104-bit terminator pattern
(`stop_signal_binary` in `extract_data`). -/
def stop_signal_binary : List Bool := to_binary STOP_SIGNAL

/-- An RGB image buffer: dimensions plus the row-major pixel list that
`img.getdata()` yields, each pixel an (R, G, B) triple of 8-bit values. -/
structure Img where
  width : Nat
  height : Nat
  pixels : List (Nat × Nat × Nat)
deriving DecidableEq, Repr

/-- One channel update of LSB substitution (`steg.py` lines 77/82/87):
`(c & 0xFE) | bit`, clearing the least-significant bit and setting it to
the message bit. -/
def embedChannel (c : Nat) (b : Bool) : Nat :=
  (c &&& 0xFE) ||| (if b then 1 else 0)

/-- The embedding loop of `hide_data` (`steg.py` lines 70–97): walk the
pixels in order, consuming up to three bits per pixel (R, then G, then B,
each guarded by `data_index < len(bits)`); once the bitstream is
exhausted the remaining pixels are appended unchanged (the
`new_pixels.extend(...)`/`break` branch). -/
def hideLoop : List (Nat × Nat × Nat) → List Bool → List (Nat × Nat × Nat)
  | [], _ => []
  | ps, [] => ps
  | (r, g, b) :: ps, [b1] => (embedChannel r b1, g, b) :: ps
  | (r, g, b) :: ps, [b1, b2] => (embedChannel r b1, embedChannel g b2, b) :: ps
  | (r, g, b) :: ps, b1 :: b2 :: b3 :: rest =>
      (embedChannel r b1, embedChannel g b2, embedChannel b b3) :: hideLoop ps rest

/-- `hide_data` (`steg.py` lines 44–109) without the file I/O: build
`to_binary(secret_message) + to_binary(STOP_SIGNAL)`, fail (Python:
`return False`) when it exceeds `width * height * 3` bits, otherwise
return the image with the bitstream embedded into the channel LSBs. -/
def hide_data (img : Img) (secret_message : List Nat) : Option Img :=
  let binary_secret_message := to_binary secret_message ++ to_binary STOP_SIGNAL
  if binary_secret_message.length > img.width * img.height * 3 then
    none
  else
    some ⟨img.width, img.height, hideLoop img.pixels binary_secret_message⟩

/-- `bin(c)[-1]` as a bit: the parity (least-significant bit) of a
channel value. -/
def lsb (c : Nat) : Bool := decide (c % 2 = 1)

/-- The channel values of a pixel list in scan order: row-major pixels,
R then G then B within a pixel. -/
def channels : List (Nat × Nat × Nat) → List Nat
  | [] => []
  | (r, g, b) :: ps => r :: g :: b :: channels ps

/-- The least-significant-bit stream of a pixel list in scan order. -/
def lsbStream (ps : List (Nat × Nat × Nat)) : List Bool := (channels ps).map lsb

/-- The stop condition of the scanning loop (`steg.py` lines 135–136):
at least `stop_signal_length` bits have been accumulated and the last
`stop_signal_length` of them equal the terminator pattern. -/
def suffixMatch (xs : List Bool) : Prop :=
  stop_signal_binary.length ≤ xs.length ∧
    xs.drop (xs.length - stop_signal_binary.length) = stop_signal_binary

instance (xs : List Bool) : Decidable (suffixMatch xs) :=
  inferInstanceAs (Decidable (_ ∧ _))

/-- The scanning loop of `extract_data` (`steg.py` lines 126–137): for
each pixel append the LSBs of R, G and B to the accumulator, then — once
per pixel, after all three — compare the last `stop_signal_binary.length`
accumulated bits with the terminator and stop on a match. -/
def extractLoop : List (Nat × Nat × Nat) → List Bool → List Bool
  | [], acc => acc
  | (r, g, b) :: ps, acc =>
      let acc2 := acc ++ [lsb r, lsb g, lsb b]
      if suffixMatch acc2 then acc2 else extractLoop ps acc2

/-- `pat` is an initial segment of `l`. -/
def beginsWith : List Bool → List Bool → Bool
  | [], _ => true
  | _ :: _, [] => false
  | p :: ps, x :: xs => (p == x) && beginsWith ps xs

/-- Python's substring test `pat in l` on bitstreams: `pat` occurs
contiguously somewhere in `l`. -/
def occursIn (pat : List Bool) : List Bool → Bool
  | [] => pat.isEmpty
  | l@(_ :: t) => beginsWith pat l || occursIn pat t

/-- Lines 139–146 of `steg.py`: if the terminator occurs anywhere in the
extracted data, drop the last `stop_signal_binary.length` bits
(`extracted_binary_data[:-stop_signal_length]`) and report it found;
otherwise keep all the data and report it missing (the "stop signal not
found" warning). -/
def splitStop (data : List Bool) : List Bool × Bool :=
  if occursIn stop_signal_binary data then
    (data.take (data.length - stop_signal_binary.length), true)
  else
    (data, false)

/-- Numeric value of a big-endian 8-bit group (`int(byte_binary, 2)`). -/
def byteVal (bits : List Bool) : Nat :=
  bits.foldl (fun a b => 2 * a + (if b then 1 else 0)) 0

/-- Lines 151–157 of `steg.py`: split the bits into consecutive 8-bit
groups and decode each complete group to a character code; a trailing
group of fewer than 8 bits is dropped (with the incomplete-byte
warning). -/
def bitsToBytes : List Bool → List Nat
  | b1 :: b2 :: b3 :: b4 :: b5 :: b6 :: b7 :: b8 :: rest =>
      byteVal [b1, b2, b3, b4, b5, b6, b7, b8] :: bitsToBytes rest
  | _ => []

/-- The outcome of `extract_data`: the decoded message, whether the stop
signal was found (`false` triggers the "stop signal not found" warning),
and whether a trailing incomplete byte was dropped (the incomplete-byte
warning). -/
structure ExtractResult where
  message : List Nat
  stopFound : Bool
  incompleteByte : Bool
deriving DecidableEq, Repr

/-- `extract_data` (`steg.py` lines 111–165) without the file I/O: scan
the LSB stream until the per-pixel suffix check matches or the pixels run
out, strip the trailing terminator when it occurs in the data, and decode
the remaining bits 8 at a time. -/
def extract_data (img : Img) : ExtractResult :=
  let data := extractLoop img.pixels []
  let split := splitStop data
  { message := bitsToBytes split.1
    stopFound := split.2
    incompleteByte := decide (split.1.length % 8 ≠ 0) }

/-! Specification-side definitions, written from the spec's words rather
than from the source, for the refinement claims that compare the two. -/

/-- The spec's description of a byte's bits: its 8-bit big-endian
(most-significant-bit first) binary representation. -/
def byteBits (n : Nat) : List Bool :=
  [decide (n / 128 % 2 = 1), decide (n / 64 % 2 = 1), decide (n / 32 % 2 = 1),
   decide (n / 16 % 2 = 1), decide (n / 8 % 2 = 1), decide (n / 4 % 2 = 1),
   decide (n / 2 % 2 = 1), decide (n % 2 = 1)]

/-- Helper for `splitFirst`: the bits of `l` strictly before the first
occurrence of `pat`, or `none` when `pat` does not occur in `l`. -/
def firstSplitAux (pat : List Bool) : List Bool → Option (List Bool)
  | [] => if pat.isEmpty then some [] else none
  | l@(x :: t) =>
      if beginsWith pat l then some [] else (firstSplitAux pat t).map (x :: ·)

/-- The split-on-terminator operation as the spec words it: the payload
is everything before the first terminator occurrence; when the
terminator never appears, the whole stream is the payload and
`found = false`. -/
def splitFirst (data : List Bool) : List Bool × Bool :=
  match firstSplitAux stop_signal_binary data with
  | some pre => (pre, true)
  | none => (data, false)

/-! Constructions used to build concrete test images. -/

/-- A pixel list whose LSB stream is the given bit list (three bits per
pixel; each channel is 0 or 1). -/
def pixelsOfBits : List Bool → List (Nat × Nat × Nat)
  | b1 :: b2 :: b3 :: rest =>
      ((if b1 then 1 else 0), (if b2 then 1 else 0), (if b3 then 1 else 0)) ::
        pixelsOfBits rest
  | _ => []

/-- Channel-by-channel view of the embedding loop: write the bits into
the least-significant bits of the leading channels, leave the rest
unchanged.  `hideLoop` refines this (see `channels_hideLoop`). -/
def zipEmbed : List Nat → List Bool → List Nat
  | cs, [] => cs
  | [], _ => []
  | c :: cs, b :: bs => embedChannel c b :: zipEmbed cs bs

/-! Helper lemmas about the embedding loop. -/

@[simp]
theorem channels_cons (r g b : Nat) (ps : List (Nat × Nat × Nat)) :
    channels ((r, g, b) :: ps) = r :: g :: b :: channels ps := rfl

/-- `hideLoop` writes the bits into the leading channels one by one:
flattened to scan order it is exactly `zipEmbed`. -/
theorem channels_hideLoop (ps : List (Nat × Nat × Nat)) (bits : List Bool) :
    channels (hideLoop ps bits) = zipEmbed (channels ps) bits := by
  induction ps generalizing bits with
  | nil => cases bits <;> rfl
  | cons p ps ih =>
    obtain ⟨r, g, b⟩ := p
    rcases bits with _ | ⟨b1, _ | ⟨b2, _ | ⟨b3, rest⟩⟩⟩
    · rfl
    · rfl
    · rfl
    · simp only [hideLoop, channels_cons, zipEmbed, ih]

theorem zipEmbed_drop (cs : List Nat) (bits : List Bool) :
    (zipEmbed cs bits).drop bits.length = cs.drop bits.length := by
  induction bits generalizing cs with
  | nil => simp [zipEmbed]
  | cons b bs ih =>
    cases cs with
    | nil => simp [zipEmbed]
    | cons c cs =>
      simp only [zipEmbed, List.length_cons, List.drop_succ_cons]
      exact ih cs

theorem zipEmbed_get (cs : List Nat) (bits : List Bool) (k : Nat) (c : Nat) (b : Bool)
    (hc : cs[k]? = some c) (hb : bits[k]? = some b) :
    (zipEmbed cs bits)[k]? = some (embedChannel c b) := by
  induction cs generalizing bits k with
  | nil => simp at hc
  | cons c' cs ih =>
    cases bits with
    | nil => simp at hb
    | cons b' bs =>
      cases k with
      | zero =>
        simp only [List.getElem?_cons_zero, Option.some.injEq] at hc hb
        subst hc; subst hb
        simp [zipEmbed]
      | succ k =>
        simp only [List.getElem?_cons_succ] at hc hb
        simpa [zipEmbed] using ih bs k hc hb

set_option maxRecDepth 4000 in
theorem embedChannel_div2 (c : Nat) (h : c < 256) (b : Bool) :
    embedChannel c b / 2 = c / 2 := by
  have hall : ∀ m : Fin 256, ∀ x : Bool, embedChannel m.val x / 2 = m.val / 2 := by decide
  exact hall ⟨c, h⟩ b

set_option maxRecDepth 4000 in
theorem format08b_eq_byteBits (n : Nat) (h : n ≤ 255) : format08b n = byteBits n := by
  have hall : ∀ m : Fin 256, format08b m.val = byteBits m.val := by decide
  exact hall ⟨n, Nat.lt_succ_of_le h⟩

/-- C3: for texts whose code points all fit in a byte, `to_binary` is the
concatenation, in character order, of each character's 8-bit big-endian
representation, and its length is 8 times the number of characters. -/
theorem to_binary_bytes (s : List Nat) (h : ∀ c ∈ s, c ≤ 255) :
    to_binary s = (s.map byteBits).flatten ∧ (to_binary s).length = 8 * s.length := by
  induction s with
  | nil => exact ⟨rfl, rfl⟩
  | cons c s ih =>
    have hc : c ≤ 255 := h c (by simp)
    obtain ⟨ih1, ih2⟩ := ih fun x hx => h x (by simp [hx])
    have hcb := format08b_eq_byteBits c hc
    constructor
    · simp only [to_binary, List.map_cons, List.flatten_cons] at ih1 ⊢
      rw [hcb, ih1]
    · simp only [to_binary, List.map_cons, List.flatten_cons, List.length_append,
        List.length_cons] at ih2 ⊢
      rw [hcb]
      simp only [byteBits, List.length_cons, List.length_nil]
      omega

/-- Witness for C3 at the spec's example message `"hi"` = `[104, 105]`. -/
theorem to_binary_bytes_example :
    to_binary [104, 105] = ([104, 105].map byteBits).flatten ∧
      (to_binary [104, 105]).length = 8 * [104, 105].length :=
  to_binary_bytes [104, 105] (by decide)

/-- C4: embedding succeeds exactly when the message-plus-terminator bit
length is at most `width * height * 3`; on failure `hide_data` produces
nothing at all (Python returns `False` before touching any pixel). -/
theorem hide_data_capacity_iff (img : Img) (msg : List Nat) :
    (hide_data img msg).isSome = true ↔
      (to_binary msg ++ to_binary STOP_SIGNAL).length ≤ img.width * img.height * 3 := by
  by_cases h : (to_binary msg ++ to_binary STOP_SIGNAL).length > img.width * img.height * 3 <;>
    simp [hide_data, h]

/-- C5: every channel at scan position at or past the bitstream's length
is copied unchanged from the cover. -/
theorem hideLoop_frame (ps : List (Nat × Nat × Nat)) (bits : List Bool) :
    (channels (hideLoop ps bits)).drop bits.length = (channels ps).drop bits.length := by
  rw [channels_hideLoop]
  exact zipEmbed_drop (channels ps) bits

/-- C6: the `k`-th channel of the output, for `k` below the bitstream
length, is `(original & 0xFE) | bits[k]`, and (for 8-bit channel values)
that differs from the original only in the least-significant bit. -/
theorem hideLoop_write (ps : List (Nat × Nat × Nat)) (bits : List Bool) (k : Nat)
    (c : Nat) (b : Bool) (hc : (channels ps)[k]? = some c) (hb : bits[k]? = some b)
    (h8 : c < 256) :
    (channels (hideLoop ps bits))[k]? = some (embedChannel c b) ∧
      embedChannel c b / 2 = c / 2 := by
  refine ⟨?_, embedChannel_div2 c h8 b⟩
  rw [channels_hideLoop]
  exact zipEmbed_get (channels ps) bits k c b hc hb

/-- Witness for C6 at a one-pixel cover and a one-bit stream. -/
theorem hideLoop_write_example :
    (channels (hideLoop [(10, 20, 30)] [true]))[0]? = some (embedChannel 10 true) ∧
      embedChannel 10 true / 2 = 10 / 2 :=
  hideLoop_write [(10, 20, 30)] [true] 0 10 true (by rfl) (by rfl) (by decide)

/-! Helper lemmas about the extraction scan. -/

@[simp]
theorem lsbStream_cons (r g b : Nat) (ps : List (Nat × Nat × Nat)) :
    lsbStream ((r, g, b) :: ps) = lsb r :: lsb g :: lsb b :: lsbStream ps := rfl

theorem extractLoop_cons (r g b : Nat) (ps : List (Nat × Nat × Nat)) (acc : List Bool) :
    extractLoop ((r, g, b) :: ps) acc =
      if suffixMatch (acc ++ [lsb r, lsb g, lsb b]) then acc ++ [lsb r, lsb g, lsb b]
      else extractLoop ps (acc ++ [lsb r, lsb g, lsb b]) := rfl

theorem beginsWith_refl (l : List Bool) : beginsWith l l = true := by
  induction l with
  | nil => rfl
  | cons x xs ih => simp [beginsWith, ih]

theorem beginsWith_append (pat l l2 : List Bool) (h : beginsWith pat l = true) :
    beginsWith pat (l ++ l2) = true := by
  induction pat generalizing l with
  | nil => rfl
  | cons p ps ih =>
    cases l with
    | nil => simp [beginsWith] at h
    | cons x xs =>
      simp only [List.cons_append, beginsWith, Bool.and_eq_true] at h ⊢
      exact ⟨h.1, ih xs h.2⟩

theorem occursIn_nil_pat (l : List Bool) : occursIn [] l = true := by
  cases l <;> simp [occursIn, beginsWith, List.isEmpty]

theorem occursIn_append_left (pat l l2 : List Bool) (h : occursIn pat l = true) :
    occursIn pat (l ++ l2) = true := by
  induction l with
  | nil =>
    simp only [occursIn, List.isEmpty_iff] at h
    subst h
    exact occursIn_nil_pat l2
  | cons x t ih =>
    simp only [List.cons_append, occursIn, Bool.or_eq_true] at h ⊢
    rcases h with h | h
    · exact Or.inl (beginsWith_append pat (x :: t) l2 h)
    · exact Or.inr (ih h)

theorem occursIn_of_drop (pat l : List Bool) (k : Nat) (h : l.drop k = pat) :
    occursIn pat l = true := by
  induction k generalizing l with
  | zero =>
    simp only [List.drop_zero] at h
    subst h
    cases l with
    | nil => rfl
    | cons p t => simp [occursIn, beginsWith_refl]
  | succ k ih =>
    cases l with
    | nil =>
      simp only [List.drop_nil] at h
      subst h
      rfl
    | cons x t =>
      simp only [List.drop_succ_cons] at h
      simp only [occursIn, Bool.or_eq_true]
      exact Or.inr (ih t h)

/-- When the terminator occurs nowhere in the image's LSB stream, no
per-pixel suffix check can fire, so the scan collects the whole stream. -/
theorem extractLoop_no_match (ps : List (Nat × Nat × Nat)) (acc : List Bool)
    (h : occursIn stop_signal_binary (acc ++ lsbStream ps) = false) :
    extractLoop ps acc = acc ++ lsbStream ps := by
  induction ps generalizing acc with
  | nil => simp [extractLoop, lsbStream, channels]
  | cons p ps ih =>
    obtain ⟨r, g, b⟩ := p
    have hfull : acc ++ lsbStream ((r, g, b) :: ps)
        = (acc ++ [lsb r, lsb g, lsb b]) ++ lsbStream ps := by
      simp
    rw [hfull] at h
    have hnot : ¬ suffixMatch (acc ++ [lsb r, lsb g, lsb b]) := by
      intro hm
      have h1 := occursIn_of_drop stop_signal_binary (acc ++ [lsb r, lsb g, lsb b]) _ hm.2
      have h2 := occursIn_append_left stop_signal_binary _ (lsbStream ps) h1
      rw [h] at h2
      simp at h2
    rw [extractLoop_cons, if_neg hnot, ih _ h]
    exact hfull.symm

/-- The number of bits accumulated by the scan always differs from the
starting accumulator by a multiple of 3. -/
theorem extractLoop_mod3 (ps : List (Nat × Nat × Nat)) (acc : List Bool) :
    (extractLoop ps acc).length % 3 = acc.length % 3 := by
  induction ps generalizing acc with
  | nil => rfl
  | cons p ps ih =>
    obtain ⟨r, g, b⟩ := p
    rw [extractLoop_cons]
    split
    · simp only [List.length_append, List.length_cons, List.length_nil]
      omega
    · rw [ih]
      simp only [List.length_append, List.length_cons, List.length_nil]
      omega

/-- C10: the scan appends the three channel bits of a pixel at a time and
the terminator check happens only at pixel boundaries, so the bitstream
accumulated at the moment the scan stops — by match or by exhausting the
image — always has length a multiple of 3. -/
theorem extract_scan_mod3 (img : Img) : (extractLoop img.pixels []).length % 3 = 0 := by
  simpa using extractLoop_mod3 img.pixels []

/-- C9: when the terminator occurs nowhere in the image's LSB stream, the
extraction scans the whole image and returns the decode of all extracted
bits together with the terminator-not-found flag (no hard failure). -/
theorem extract_no_terminator (img : Img)
    (h : occursIn stop_signal_binary (lsbStream img.pixels) = false) :
    (extract_data img).message = bitsToBytes (lsbStream img.pixels) ∧
      (extract_data img).stopFound = false := by
  have hd : extractLoop img.pixels [] = lsbStream img.pixels := by
    simpa using extractLoop_no_match img.pixels [] (by simpa using h)
  simp [extract_data, hd, splitStop, h]

/-- Witness for C9: an unmodified 1×2 all-black cover contains no
terminator, so extraction decodes its whole stream and reports the
terminator missing. -/
theorem extract_no_terminator_example :
    (extract_data ⟨1, 2, [(0, 0, 0), (0, 0, 0)]⟩).message
        = bitsToBytes (lsbStream [(0, 0, 0), (0, 0, 0)]) ∧
      (extract_data ⟨1, 2, [(0, 0, 0), (0, 0, 0)]⟩).stopFound = false :=
  extract_no_terminator ⟨1, 2, [(0, 0, 0), (0, 0, 0)]⟩ (by decide)

set_option maxRecDepth 40000 in
/-- C7 counterexample: the claim says the suffix comparison happens after
every single appended bit, so a terminator whose last bit is appended at
position 104 is detected there with the scan stopped at 104 bits.  In
this image the first 104 bits of the LSB stream are exactly the
terminator, yet the scan (which checks only at pixel boundaries, where
104 is not a multiple of 3) runs through all 36 pixels and accumulates
108 bits. -/
theorem extract_not_per_bit :
    (lsbStream (pixelsOfBits (stop_signal_binary ++ [false, false, false, false]))).take 104
        = stop_signal_binary ∧
      (extractLoop (pixelsOfBits (stop_signal_binary ++ [false, false, false, false])) []).length
        = 108 := by
  decide

/-- C7 as amended: the reader appends the three channel bits of a pixel
and then compares the most recent terminator-length suffix once per
pixel; it stops at the first pixel boundary where that suffix equals the
terminator, reading none of the remaining pixels.  Stated for a scan that
has already accumulated `acc`: if the suffix check first succeeds exactly
at the end of `ps1`, the scan returns `acc ++ lsbStream ps1` and never
touches `ps2`. -/
theorem extract_stops_first_match (ps1 ps2 : List (Nat × Nat × Nat)) (acc : List Bool)
    (h1 : ps1 ≠ [])
    (h2 : suffixMatch (acc ++ lsbStream ps1))
    (h3 : ∀ k, k < ps1.length → k ≠ 0 → ¬ suffixMatch (acc ++ lsbStream (ps1.take k))) :
    extractLoop (ps1 ++ ps2) acc = acc ++ lsbStream ps1 := by
  revert h1 h2 h3
  induction ps1 generalizing acc with
  | nil =>
    intro h1 _ _
    exact absurd rfl h1
  | cons p ps1 ih =>
    obtain ⟨r, g, b⟩ := p
    intro _ h2 h3
    rw [List.cons_append, extractLoop_cons]
    by_cases hps : ps1 = []
    · subst hps
      have h2' : suffixMatch (acc ++ [lsb r, lsb g, lsb b]) := by
        simpa [lsbStream, channels] using h2
      rw [if_pos h2']
      simp [lsbStream, channels]
    · have hk1 : ¬ suffixMatch (acc ++ [lsb r, lsb g, lsb b]) := by
        have hlt : 1 < ((r, g, b) :: ps1).length := by
          simp only [List.length_cons]
          have := List.length_pos.mpr hps
          omega
        have := h3 1 hlt (by omega)
        simpa [lsbStream, channels] using this
      rw [if_neg hk1]
      have h2' : suffixMatch ((acc ++ [lsb r, lsb g, lsb b]) ++ lsbStream ps1) := by
        simpa [List.append_assoc] using h2
      have h3' : ∀ k, k < ps1.length → k ≠ 0 →
          ¬ suffixMatch ((acc ++ [lsb r, lsb g, lsb b]) ++ lsbStream (ps1.take k)) := by
        intro k hk hk0
        have := h3 (k + 1) (by simp only [List.length_cons]; omega) (by omega)
        simpa [List.take_succ_cons, List.append_assoc] using this
      rw [ih (acc ++ [lsb r, lsb g, lsb b]) hps h2' h3']
      simp [List.append_assoc]

/-- Witness for the amended C7: a 35-pixel image whose LSB stream is one
padding bit followed by the terminator (so the terminator ends exactly at
a pixel boundary); the scan stops there and never reads the extra pixel
appended after it. -/
theorem extract_stops_first_match_example :
    extractLoop (pixelsOfBits (false :: stop_signal_binary) ++ [(7, 7, 7)]) [] =
      [] ++ lsbStream (pixelsOfBits (false :: stop_signal_binary)) :=
  extract_stops_first_match (pixelsOfBits (false :: stop_signal_binary)) [(7, 7, 7)] []
    (by decide) (by decide) (by decide)

/-- C8 counterexample: on a scanned stream that starts with the
terminator but whose scan missed it (its end is not at a pixel boundary),
the code's split removes the last terminator-length bits, which is not
the bits-before-the-first-occurrence split the claim describes. -/
theorem splitStop_not_first :
    splitStop (extractLoop (pixelsOfBits (stop_signal_binary ++ [false])) [])
      ≠ splitFirst (extractLoop (pixelsOfBits (stop_signal_binary ++ [false])) []) := by
  decide

/-- C8 as amended: when the terminator occurs in the scanned stream the
code drops the last terminator-length bits — so the payload equals the
bits before the terminator exactly when the terminator sits at the very
end of the stream (the early-stop case), `data = pre ++ terminator`
giving payload `pre`; when the terminator never occurs the whole stream
is returned with `found = false`. -/
theorem splitStop_suffix_spec (data pre : List Bool) :
    (data = pre ++ stop_signal_binary → splitStop data = (pre, true)) ∧
      (occursIn stop_signal_binary data = false → splitStop data = (data, false)) := by
  constructor
  · intro h
    subst h
    have hocc : occursIn stop_signal_binary (pre ++ stop_signal_binary) = true :=
      occursIn_of_drop stop_signal_binary _ pre.length (List.drop_left pre _)
    simp [splitStop, hocc, List.length_append, Nat.add_sub_cancel, List.take_left]
  · intro h
    simp [splitStop, h]

/-- Witness for the amended C8: a stream that is exactly the terminator
splits into the empty payload with `found = true`. -/
theorem splitStop_suffix_spec_example :
    splitStop stop_signal_binary = ([], true) :=
  (splitStop_suffix_spec stop_signal_binary []).1 rfl

/-- C2: the code does not reject characters beyond one byte.  At code
point 300 `to_binary` silently emits a 9-bit representation (Python's
`format(n, "08b")` pads to *at least* 8 digits and never errors), and
`hide_data` embeds the misaligned stream successfully instead of failing
with an encoding error. -/
theorem encoding_not_rejected :
    (to_binary [300]).length = 9 ∧
      (hide_data ⟨7, 6, List.replicate 42 (0, 0, 0)⟩ [300]).isSome = true := by
  decide

set_option maxRecDepth 40000 in
/-- C1: the round trip fails on the code.  Embedding the one-character
message `"a"` (`[97]`; 112 bits with the terminator, not a multiple of 3)
into a 2×20 all-black cover and extracting returns `"a#"` (`[97, 35]`),
not `"a"`: the per-pixel suffix check never matches, the scan reads the
whole image, and the split then drops only the last 104 of the 120
scanned bits. -/
theorem roundtrip_misaligned :
    (hide_data ⟨2, 20, List.replicate 40 (0, 0, 0)⟩ [97]).map
        (fun im => (extract_data im).message) = some [97, 35] ∧
      ([97, 35] : List Nat) ≠ [97] := by
  decide
